import Mathlib

/-!
Verification of the Markdown document model and ingestion pipeline of this
repository (`src/models/markdown.py`, `src/backends/dspy.py`,
`src/get_markdown_metadata_with_dspy.py`).

The embedding covers:
* the recursive document model `Content` / `Heading` / `MarkdownDocument`
  (pydantic models in `src/models/markdown.py`), as the inductive `Node` and
  the structure `MarkdownDocument`;
* generic JSON values (`json.loads` results) as the mutual inductive
  `JValue` / `JArr` / `JMembers` (object member order and duplicates resolved
  exactly as Python `dict` does);
* schema validation, modelling pydantic v2 default ("smart") validation of the
  field declarations in `src/models/markdown.py`: extra keys are ignored
  (default `extra='ignore'`), the untagged union `Union[Content, Heading]` is
  resolved by a strict pass over the members in declaration order followed by
  a lax pass (lax mode additionally coerces integer-looking strings for the
  `int` field `level`), and all field errors of a failed pass are collected
  with their locations;
* canonical serialization `model_dump_json(indent=2, ensure_ascii=False)`:
  2-space indentation in the pretty-printer style of pydantic's serializer,
  keys in field declaration order, only JSON-mandatory escaping (quote,
  backslash, control characters), all other characters emitted literally;
* the fence-stripping repair stage of `run_with_dspy` (`src/backends/dspy.py`
  lines 67-77) at Python string semantics (`str.strip`, `str.split("\n")`,
  `str.startswith`, `"\n".join`);
* a JSON text parser modelling `json.loads` on the fragment the pipeline
  exercises (objects, arrays, strings with escapes, integer numerals,
  `true` / `false` / `null`); float syntax, leading-zero rejection and
  surrogate-pair combination are outside the modelled fragment and are not
  relied on by any theorem;
* the pipeline of `run_with_dspy` (strip, parse, validate, serialize) with its
  error taxonomy (`MalformedPayload` from `json.JSONDecodeError`,
  `SchemaViolation` from pydantic `ValidationError`).
-/

namespace MdPipeline

/-! ## Document model (src/models/markdown.py) -/

/-- A document node: `Content` (leaf, field `content`) or `Heading`
(fields `level`, `text`, `children`), mirroring the two pydantic models. -/
inductive Node where
  | content (content : String)
  | heading (level : Int) (text : String) (children : List Node)
deriving Repr

/-- `MarkdownDocument` with its single required field `contents`. -/
structure MarkdownDocument where
  contents : List Node
deriving Repr

/-! ## Generic JSON values (the result of `json.loads`) -/

mutual
/-- A generic JSON value. Numbers are integers: the document schema's only
numeric field is `level: int`, and every claim is about the integer fragment. -/
inductive JValue where
  | null
  | bool (b : Bool)
  | int (n : Int)
  | str (s : String)
  | arr (items : JArr)
  | obj (members : JMembers)
deriving Repr

/-- A JSON array, order-preserving. -/
inductive JArr where
  | nil
  | cons (head : JValue) (tail : JArr)
deriving Repr

/-- JSON object members in insertion order (Python `dict` order). -/
inductive JMembers where
  | nil
  | cons (key : String) (value : JValue) (tail : JMembers)
deriving Repr
end

/-- First binding of `key` (the parser keeps keys unique, as `dict` does). -/
def lookupJ : JMembers → String → Option JValue
  | .nil, _ => none
  | .cons k v t, key => if k = key then some v else lookupJ t key

/-- View of a `JArr` as a list, for order-preservation statements. -/
def JArr.toList : JArr → List JValue
  | .nil => []
  | .cons v t => v :: JArr.toList t

/-! ## Dumping a document to its JSON value (`model_dump`) -/

mutual
/-- The JSON value a node serializes to: fields in declaration order
(`content`; `level`, `text`, `children`), exactly pydantic's `model_dump`. -/
def dumpNode : Node → JValue
  | .content s => .obj (.cons "content" (.str s) .nil)
  | .heading lv t ch =>
      .obj (.cons "level" (.int lv)
        (.cons "text" (.str t)
          (.cons "children" (.arr (dumpNodes ch)) .nil)))

/-- Dump a list of nodes in order. -/
def dumpNodes : List Node → JArr
  | [] => .nil
  | n :: ns => .cons (dumpNode n) (dumpNodes ns)
end

/-- The JSON value a document serializes to. -/
def dumpDoc (d : MarkdownDocument) : JValue :=
  .obj (.cons "contents" (.arr (dumpNodes d.contents)) .nil)

/-! ## Canonical serialization: `model_dump_json(indent=2, ensure_ascii=False)`

pydantic's serializer pretty-prints with a 2-space indent unit: a non-empty
object is `{`, newline, each member on its own line at the inner indent as
`"key": value` separated by `,` + newline, then newline + outer indent + `}`;
arrays likewise; empty containers print as `{}` / `[]`.  `ensure_ascii=False`
means only `"`, `\`, and control characters are escaped (the short names
`\b \f \n \r \t` where they exist, `\u00XX` otherwise); everything else,
including non-ASCII text, is emitted literally. -/

/-- Indentation: `2 * d` spaces. -/
def padL : Nat → List Char
  | 0 => []
  | d + 1 => ' ' :: ' ' :: padL d

/-- Lowercase hex digit for `n < 16`. -/
def hexDigitChar (n : Nat) : Char :=
  if n < 10 then Char.ofNat (48 + n) else Char.ofNat (87 + n)

/-- JSON escaping of one character under `ensure_ascii=False`: only the
characters JSON forces to be escaped are; all others stay literal. -/
def escapeChar (c : Char) : List Char :=
  if c = '"' then ['\\', '"']
  else if c = '\\' then ['\\', '\\']
  else if c = '\n' then ['\\', 'n']
  else if c = '\r' then ['\\', 'r']
  else if c = '\t' then ['\\', 't']
  else if c = Char.ofNat 8 then ['\\', 'b']
  else if c = Char.ofNat 12 then ['\\', 'f']
  else if c.toNat < 32 then
    let code := c.toNat
    '\\' :: 'u' :: '0' :: '0' :: [hexDigitChar (code / 16), hexDigitChar (code % 16)]
  else [c]

/-- The escaped body of a JSON string literal. -/
def escapeStr (s : String) : List Char := s.data.flatMap escapeChar

/-- A complete JSON string literal. -/
def quoteStr (s : String) : List Char := '"' :: (escapeStr s ++ ['"'])

/-- The decimal digit character of `n % 10`. -/
def digitChar (n : Nat) : Char := Char.ofNat (48 + n % 10)

/-- Decimal digits of `n`, most significant first, in front of `acc`;
`fuel` bounds the recursion (any `fuel` with `n < 10 ^ fuel` is enough). -/
def natDigitsFrom : Nat → Nat → List Char → List Char
  | 0, _, acc => acc
  | fuel + 1, n, acc =>
      if n < 10 then digitChar n :: acc
      else natDigitsFrom fuel (n / 10) (digitChar n :: acc)

/-- Decimal digit characters of `n`, most significant first. -/
def natDigits (n : Nat) : List Char := natDigitsFrom (n + 1) n []

/-- Decimal rendering of an integer: optional minus sign, then digits. -/
def intChars (i : Int) : List Char :=
  if i < 0 then '-' :: natDigits i.natAbs else natDigits i.natAbs

mutual
/-- Pretty-print a JSON value at indentation depth `d` (2-space unit),
in the exact layout of `model_dump_json(indent=2)`. -/
def renderVal (d : Nat) : JValue → List Char
  | .null => "null".data
  | .bool true => "true".data
  | .bool false => "false".data
  | .int n => intChars n
  | .str s => quoteStr s
  | .arr .nil => ['[', ']']
  | .arr (.cons v t) =>
      '[' :: '\n' :: (renderItems (d + 1) (.cons v t) ++ '\n' :: (padL d ++ [']']))
  | .obj .nil => ['\x7b', '\x7d']
  | .obj (.cons k v t) =>
      '\x7b' :: '\n' :: (renderMembers (d + 1) (.cons k v t) ++ '\n' :: (padL d ++ ['\x7d']))

/-- Array items, one per line at indent `d`, separated by `,` + newline. -/
def renderItems (d : Nat) : JArr → List Char
  | .nil => []
  | .cons v .nil => padL d ++ renderVal d v
  | .cons v (.cons v2 t) =>
      padL d ++ renderVal d v ++ ',' :: '\n' :: renderItems d (.cons v2 t)

/-- Object members, one per line at indent `d`, as `"key": value`. -/
def renderMembers (d : Nat) : JMembers → List Char
  | .nil => []
  | .cons k v .nil => padL d ++ quoteStr k ++ ':' :: ' ' :: renderVal d v
  | .cons k v (.cons k2 v2 t) =>
      padL d ++ quoteStr k ++ ':' :: ' ' :: renderVal d v
        ++ ',' :: '\n' :: renderMembers d (.cons k2 v2 t)
end

/-- `document.model_dump_json(indent=2, ensure_ascii=False)`. -/
def serializeDoc (d : MarkdownDocument) : String := ⟨renderVal 0 (dumpDoc d)⟩

/-! ## Fence stripping (src/backends/dspy.py lines 67-77)

```python
markdown_json_str = result.markdown_json.strip()
if markdown_json_str.startswith("```"):
    lines = markdown_json_str.split("\n")
    markdown_json_str = "\n".join(
        line for i, line in enumerate(lines)
        if not line.strip().startswith("```")
    )
```
modelled at Python string semantics. -/

/-- The characters Python's `str.strip()` removes (default whitespace set,
ASCII part: space, tab, newline, carriage return, vertical tab, form feed). -/
def pyIsSpace (c : Char) : Bool :=
  c = ' ' || c = '\t' || c = '\n' || c = '\r' || c = Char.ofNat 11 || c = Char.ofNat 12

/-- Python `str.strip()`. -/
def pyStripL (l : List Char) : List Char :=
  ((l.dropWhile pyIsSpace).reverse.dropWhile pyIsSpace).reverse

/-- Python `str.split("\n")`: split at every newline, keeping empty pieces. -/
def splitLinesL : List Char → List (List Char)
  | [] => [[]]
  | c :: rest =>
      if c = '\n' then [] :: splitLinesL rest
      else
        match splitLinesL rest with
        | [] => [[c]]
        | l :: ls => (c :: l) :: ls

/-- Python `"\n".join(lines)`. -/
def joinLinesL : List (List Char) → List Char
  | [] => []
  | [l] => l
  | l :: l2 :: ls => l ++ '\n' :: joinLinesL (l2 :: ls)

/-- `line.startswith("```")`. -/
def startsFence (l : List Char) : Bool := l.take 3 == ['`', '`', '`']

/-- `line.strip().startswith("```")`: the per-line test of the stripping loop. -/
def isFenceLine (l : List Char) : Bool := startsFence (pyStripL l)

/-- The repair stage: trim the blob; if it starts with a code fence, drop every
line whose stripped form starts with three backticks and rejoin the rest. -/
def stripFences (s : String) : String :=
  let t := pyStripL s.data
  if startsFence t then
    ⟨joinLinesL ((splitLinesL t).filter (fun l => !isFenceLine l))⟩
  else ⟨t⟩

/-! ## JSON text parsing (`json.loads`)

A recursive-descent parser on the character list, structural on a fuel
counter (`json.loads` always terminates; the fuel is an artifact and any
sufficiently large value — the pipeline passes the input length plus one —
gives the same result).  Error messages follow CPython's `json` module. -/

/-- JSON whitespace (the only characters `json.loads` skips between tokens). -/
def jsonWs (c : Char) : Bool := c = ' ' || c = '\t' || c = '\n' || c = '\r'

/-- Skip JSON whitespace. -/
def skipWs : List Char → List Char
  | c :: cs => if jsonWs c then skipWs cs else c :: cs
  | [] => []

/-- ASCII decimal digit test (code points 48-57). -/
def isDigitC (c : Char) : Bool := 48 ≤ c.toNat && c.toNat ≤ 57

/-- Longest digit run at the front. -/
def takeDigits : List Char → List Char × List Char
  | c :: cs =>
      if isDigitC c then
        let (ds, r) := takeDigits cs
        (c :: ds, r)
      else ([], c :: cs)
  | [] => ([], [])

/-- Value of a digit run. -/
def digitsToNat (ds : List Char) : Nat :=
  ds.foldl (fun acc c => acc * 10 + (c.toNat - 48)) 0

/-- Parse an integer numeral: optional minus sign, then digits. -/
def parseNumber : List Char → Except String (Int × List Char)
  | '-' :: cs =>
      match takeDigits cs with
      | ([], _) => .error "Expecting value"
      | (ds, r) => .ok (-(digitsToNat ds : Int), r)
  | cs =>
      match takeDigits cs with
      | ([], _) => .error "Expecting value"
      | (ds, r) => .ok ((digitsToNat ds : Int), r)

/-- Value of a hex digit character, if it is one. -/
def hexVal (c : Char) : Option Nat :=
  if 48 ≤ c.toNat && c.toNat ≤ 57 then some (c.toNat - 48)
  else if 97 ≤ c.toNat && c.toNat ≤ 102 then some (c.toNat - 87)
  else if 65 ≤ c.toNat && c.toNat ≤ 70 then some (c.toNat - 55)
  else none

/-- The single-character escapes JSON defines: `\"`, `\\` and `\/` denote
themselves, and `\n \r \t \b \f` the usual control characters. -/
def unescapeChar (e : Char) : Option Char :=
  if e = '"' ∨ e = '\\' ∨ e = '/' then some e
  else if e = 'n' then some '\n'
  else if e = 'r' then some '\r'
  else if e = 't' then some '\t'
  else if e = 'b' then some (Char.ofNat 8)
  else if e = 'f' then some (Char.ofNat 12)
  else none

/-- Parse a string body after the opening quote.  Raw control characters are
rejected, as `json.loads` does in its default strict mode. -/
def parseStrBody (acc : List Char) : List Char → Except String (String × List Char)
  | '"' :: rest => .ok (⟨acc.reverse⟩, rest)
  | '\\' :: 'u' :: a :: b :: c :: d :: rest =>
      match hexVal a, hexVal b, hexVal c, hexVal d with
      | some va, some vb, some vc, some vd =>
          parseStrBody (Char.ofNat (((va * 16 + vb) * 16 + vc) * 16 + vd) :: acc) rest
      | _, _, _, _ => .error "Invalid \\uXXXX escape"
  | '\\' :: e :: rest =>
      match unescapeChar e with
      | some ch => parseStrBody (ch :: acc) rest
      | none => .error "Invalid \\escape"
  | c :: rest =>
      if c.toNat < 32 then .error "Invalid control character"
      else parseStrBody (c :: acc) rest
  | [] => .error "Unterminated string"

/-- Drop every binding of `key`. -/
def removeKey : JMembers → String → JMembers
  | .nil, _ => .nil
  | .cons k w t, key => if k = key then removeKey t key else .cons k w (removeKey t key)

/-- Prepend a member with Python `dict` semantics for duplicate keys: the first
occurrence fixes the position, the last occurrence fixes the value.  `ms` holds
the members that come after this one, already resolved. -/
def insertMember (key : String) (v : JValue) (ms : JMembers) : JMembers :=
  match lookupJ ms key with
  | some w => .cons key w (removeKey ms key)
  | none => .cons key v ms

mutual
/-- Parse one JSON value (after optional leading whitespace). -/
def parseVal : Nat → List Char → Except String (JValue × List Char)
  | 0, _ => .error "Expecting value"
  | fuel + 1, cs =>
      match skipWs cs with
      | '"' :: tl =>
          (match parseStrBody [] tl with
           | .ok (s, u) => .ok (.str s, u)
           | .error e => .error e)
      | '[' :: tl =>
          (match skipWs tl with
           | ']' :: u => .ok (.arr .nil, u)
           | _ => match parseItems fuel tl with
                  | .ok (items, u) => .ok (.arr items, u)
                  | .error e => .error e)
      | '\x7b' :: tl =>
          (match skipWs tl with
           | '\x7d' :: u => .ok (.obj .nil, u)
           | _ => match parseMembersJ fuel tl with
                  | .ok (ms, u) => .ok (.obj ms, u)
                  | .error e => .error e)
      | 'n' :: 'u' :: 'l' :: 'l' :: tl => .ok (.null, tl)
      | 't' :: 'r' :: 'u' :: 'e' :: tl => .ok (.bool true, tl)
      | 'f' :: 'a' :: 'l' :: 's' :: 'e' :: tl => .ok (.bool false, tl)
      | c :: tl =>
          if c = '-' || isDigitC c then
            match parseNumber (c :: tl) with
            | .ok (n, u) => .ok (.int n, u)
            | .error e => .error e
          else .error "Expecting value"
      | [] => .error "Expecting value"

/-- Parse one or more comma-separated array items (the empty array is handled
before the first call). -/
def parseItems : Nat → List Char → Except String (JArr × List Char)
  | 0, _ => .error "Expecting value"
  | fuel + 1, cs =>
      match parseVal fuel cs with
      | .error e => .error e
      | .ok (v, r) =>
          match skipWs r with
          | ',' :: r2 =>
              (match parseItems fuel r2 with
               | .ok (items, r3) => .ok (.cons v items, r3)
               | .error e => .error e)
          | ']' :: r2 => .ok (.cons v .nil, r2)
          | _ => .error "Expecting ',' delimiter"

/-- Parse one or more comma-separated object members; duplicate keys are
resolved through `insertMember` (Python `dict` semantics). -/
def parseMembersJ : Nat → List Char → Except String (JMembers × List Char)
  | 0, _ => .error "Expecting value"
  | fuel + 1, cs =>
      match skipWs cs with
      | '"' :: b0 =>
          (match parseStrBody [] b0 with
           | .error e => .error e
           | .ok (key, b1) =>
               match skipWs b1 with
               | ':' :: b2 =>
                   (match parseVal fuel b2 with
                    | .error e => .error e
                    | .ok (v, b3) =>
                        match skipWs b3 with
                        | ',' :: b4 =>
                            (match parseMembersJ fuel b4 with
                             | .ok (ms, b5) => .ok (insertMember key v ms, b5)
                             | .error e => .error e)
                        | '\x7d' :: b4 => .ok (.cons key v .nil, b4)
                        | _ => .error "Expecting ',' delimiter")
               | _ => .error "Expecting ':' delimiter")
      | _ => .error "Expecting property name enclosed in double quotes"
end

/-- `json.loads`: parse a complete document, allowing only trailing whitespace. -/
def jparse (s : String) : Except String JValue :=
  match parseVal (s.data.length + 1) s.data with
  | .error e => .error e
  | .ok (v, rest) => if skipWs rest = [] then .ok v else .error "Extra data"

/-! ## Schema validation (pydantic v2 defaults on `src/models/markdown.py`)

`MarkdownDocument(**markdown_dict)` validates with pydantic's defaults:
* extra keys are ignored (`model_config.extra = 'ignore'`);
* the untagged `Union[Content, Heading]` is resolved in smart mode: each
  member is first tried in strict mode in declaration order (`Content`,
  then `Heading`), and only if no member matches strictly is the lax pass
  run, again in declaration order; the first success wins;
* lax mode's only coercion relevant to these models is string-to-int for
  `level` (an integer-formatted string validates; `bool` never does);
* a failed union reports the errors of both members, each under a path
  tagged with the member's type name, and all field errors of a member are
  collected, not just the first. -/

/-- One step of a pydantic error location: a field name or a list index. -/
inductive PathItem where
  | key (k : String)
  | index (i : Nat)
deriving Repr

/-- One validation error: a location path and a message. -/
structure VError where
  loc : List PathItem
  msg : String
deriving Repr

/-- Push a path step onto every error of a list. -/
def pushLoc (p : PathItem) (es : List VError) : List VError :=
  es.map (fun e => ⟨p :: e.loc, e.msg⟩)

/-- Errors of an attempt, empty when it succeeded. -/
def errsOf {α : Type} : Except (List VError) α → List VError
  | .ok _ => []
  | .error es => es

/-- pydantic's lax string-to-int coercion: an optional sign followed by
decimal digits (the coercion the `level: int` field admits in lax mode). -/
def intFromChars : List Char → Option Int
  | [] => none
  | '-' :: ds => if ds ≠ [] ∧ ds.all isDigitC then some (-(digitsToNat ds : Int)) else none
  | '+' :: ds => if ds ≠ [] ∧ ds.all isDigitC then some ((digitsToNat ds : Int)) else none
  | ds => if ds.all isDigitC then some ((digitsToNat ds : Int)) else none

/-- Lax string-to-int on a `String`. -/
def intFromString (s : String) : Option Int := intFromChars s.data

/-- Strict match of the `Content` shape: a `content` key holding a string;
all other keys are ignored. -/
def strictContentOf (ms : JMembers) : Option Node :=
  match lookupJ ms "content" with
  | some (.str s) => some (.content s)
  | _ => none

mutual
/-- Strict-mode match of one union element.  pydantic-core's smart union
scores every strictly matching member and prefers the model member with the
most fields set; all fields of both models are required, so a `Heading` match
always sets three fields against a `Content` match's one, and an object
matching both shapes resolves to `Heading`.  The `Heading` shape needs
`level` an integer, `text` a string, and `children` a list whose elements all
match strictly; extra keys are ignored in both shapes. -/
def strictNode : JValue → Option Node
  | .obj ms =>
      (match lookupJ ms "level", lookupJ ms "text", strictChildrenOf ms with
       | some (.int lv), some (.str t), some ch => some (.heading lv t ch)
       | _, _, _ => strictContentOf ms)
  | _ => none

/-- Walk the members for the `children` key and strictly validate its value. -/
def strictChildrenOf : JMembers → Option (List Node)
  | .nil => none
  | .cons k (.arr a) t => if k = "children" then strictArr a else strictChildrenOf t
  | .cons k _ t => if k = "children" then none else strictChildrenOf t

/-- Strictly validate every element of an array. -/
def strictArr : JArr → Option (List Node)
  | .nil => some []
  | .cons v t =>
      match strictNode v, strictArr t with
      | some n, some ns => some (n :: ns)
      | _, _ => none
end

/-- Lax attempt at the `Content` shape, with pydantic-style errors.  Lax mode
adds no coercion for `str`, so acceptance coincides with the strict match. -/
def laxContentOf (ms : JMembers) : Except (List VError) Node :=
  match lookupJ ms "content" with
  | some (.str s) => .ok (.content s)
  | some _ => .error [⟨[.key "content"], "Input should be a valid string"⟩]
  | none => .error [⟨[.key "content"], "Field required"⟩]

/-- Lax check of the `level` field. -/
def laxLevel (ms : JMembers) : Except (List VError) Int :=
  match lookupJ ms "level" with
  | some (.int n) => .ok n
  | some (.str s) =>
      (match intFromString s with
       | some n => .ok n
       | none => .error
           [⟨[.key "level"], "Input should be a valid integer, unable to parse string as an integer"⟩])
  | some _ => .error [⟨[.key "level"], "Input should be a valid integer"⟩]
  | none => .error [⟨[.key "level"], "Field required"⟩]

/-- Lax check of the `text` field. -/
def laxText (ms : JMembers) : Except (List VError) String :=
  match lookupJ ms "text" with
  | some (.str s) => .ok s
  | some _ => .error [⟨[.key "text"], "Input should be a valid string"⟩]
  | none => .error [⟨[.key "text"], "Field required"⟩]

mutual
/-- Smart-union resolution of one `contents`/`children` element: the strict
pass over both members (preferring the most-fields-set match, see
`strictNode`), then the lax pass.  Lax mode adds no coercion for `str`, so a
`Content` lax match coincides with its strict match and only `Heading` can
newly succeed in the lax pass; the fields-set preference is therefore already
settled by the time the lax attempts run.  A double failure reports both
members' errors, each under its type-name tag, with every field error of a
member collected. -/
def smartNode : JValue → Except (List VError) Node
  | .obj ms =>
      (match strictNode (.obj ms) with
       | some n => .ok n
       | none =>
           match laxContentOf ms with
           | .ok n => .ok n
           | .error ce =>
               match laxLevel ms, laxText ms, laxChildrenField ms with
               | .ok lv, .ok t, .ok ch => .ok (.heading lv t ch)
               | rl, rt, rc =>
                   .error (pushLoc (.key "Content") ce
                     ++ pushLoc (.key "Heading") (errsOf rl ++ errsOf rt ++ errsOf rc)))
  | _ =>
      .error (pushLoc (.key "Content")
          [⟨[], "Input should be a valid dictionary or instance of Content"⟩]
        ++ pushLoc (.key "Heading")
          [⟨[], "Input should be a valid dictionary or instance of Heading"⟩])

/-- Walk the members for the `children` key and validate its value in lax
mode (each element going through the smart union again). -/
def laxChildrenField : JMembers → Except (List VError) (List Node)
  | .nil => .error [⟨[.key "children"], "Field required"⟩]
  | .cons k (.arr a) t =>
      if k = "children" then
        match laxArr 0 a with
        | .ok ns => .ok ns
        | .error es => .error (pushLoc (.key "children") es)
      else laxChildrenField t
  | .cons k _ t =>
      if k = "children" then .error [⟨[.key "children"], "Input should be a valid list"⟩]
      else laxChildrenField t

/-- Validate every element of an array through the smart union, collecting
the errors of every failing index. -/
def laxArr : Nat → JArr → Except (List VError) (List Node)
  | _, .nil => .ok []
  | i, .cons v t =>
      match smartNode v, laxArr (i + 1) t with
      | .ok n, .ok ns => .ok (n :: ns)
      | rv, rt => .error (pushLoc (.index i) (errsOf rv) ++ errsOf rt)
end

/-- `MarkdownDocument(**markdown_dict)`: the top-level object must carry a
`contents` key holding a list, whose elements resolve through the union;
extra keys are ignored. -/
def validateDoc : JValue → Except (List VError) MarkdownDocument
  | .obj ms =>
      (match lookupJ ms "contents" with
       | some (.arr a) =>
           (match laxArr 0 a with
            | .ok ns => .ok ⟨ns⟩
            | .error es => .error (pushLoc (.key "contents") es))
       | some _ => .error [⟨[.key "contents"], "Input should be a valid list"⟩]
       | none => .error [⟨[.key "contents"], "Field required"⟩])
  | _ => .error [⟨[], "Input should be a valid dictionary"⟩]

/-! ## The ingestion pipeline (`run_with_dspy`, src/backends/dspy.py 62-95) -/

/-- The pipeline's error taxonomy: `json.JSONDecodeError` is reported with the
parser diagnostic and the original generated text in full
(`typer.echo(f"... \x7be\x7d", err=True)` then the raw `result.markdown_json`);
a pydantic `ValidationError` surfaces the collected violations. -/
inductive PipelineError where
  | malformedPayload (diagnostic : String) (original : String)
  | schemaViolation (errors : List VError)
deriving Repr

/-- Stages 1-4 on the raw generated text: fence stripping, `json.loads`,
`MarkdownDocument(**dict)`, `model_dump_json(indent=2, ensure_ascii=False)`. -/
def runPipeline (generated : String) : Except PipelineError String :=
  match jparse (stripFences generated) with
  | .error diag => .error (.malformedPayload diag generated)
  | .ok v =>
      match validateDoc v with
      | .error es => .error (.schemaViolation es)
      | .ok doc => .ok (serializeDoc doc)

/-- Stages 1-3 only: the parse direction of the round-trip property. -/
def parseDocument (text : String) : Except PipelineError MarkdownDocument :=
  match jparse (stripFences text) with
  | .error diag => .error (.malformedPayload diag text)
  | .ok v =>
      match validateDoc v with
      | .error es => .error (.schemaViolation es)
      | .ok doc => .ok doc

/-! ## Auxiliary measures and invariants used by the proofs -/

mutual
/-- A fuel lower bound for the parser on this value's rendering. -/
def jNeed : JValue → Nat
  | .null => 1
  | .bool _ => 1
  | .int _ => 1
  | .str _ => 1
  | .arr a => jNeedArr a + 1
  | .obj ms => jNeedMem ms + 1

/-- Fuel lower bound for `parseItems` on this array's items. -/
def jNeedArr : JArr → Nat
  | .nil => 1
  | .cons v t => jNeed v + jNeedArr t + 1

/-- Fuel lower bound for `parseMembersJ` on these members. -/
def jNeedMem : JMembers → Nat
  | .nil => 1
  | .cons _ v t => jNeed v + jNeedMem t + 1
end

mutual
/-- Every object inside has pairwise-distinct keys (true of every
`dumpNode` image; parsing re-establishes it through `insertMember`). -/
def uniqVal : JValue → Bool
  | .null => true
  | .bool _ => true
  | .int _ => true
  | .str _ => true
  | .arr a => uniqArr a
  | .obj ms => uniqMem ms

/-- `uniqVal` on every element. -/
def uniqArr : JArr → Bool
  | .nil => true
  | .cons v t => uniqVal v && uniqArr t

/-- Keys distinct at this level and `uniqVal` below. -/
def uniqMem : JMembers → Bool
  | .nil => true
  | .cons k v t => (lookupJ t k).isNone && uniqVal v && uniqMem t
end

/-! ## Lemmas about the fence-stripping stage -/

theorem splitLinesL_ne_nil (l : List Char) : splitLinesL l ≠ [] := by
  match l with
  | [] => simp [splitLinesL]
  | c :: rest =>
      rw [splitLinesL]
      split
      · simp
      · cases h : splitLinesL rest <;> simp

theorem splitLinesL_exists_cons (l : List Char) :
    ∃ l2 ls, splitLinesL l = l2 :: ls := by
  cases h : splitLinesL l with
  | nil => exact absurd h (splitLinesL_ne_nil l)
  | cons l2 ls => exact ⟨l2, ls, rfl⟩

theorem joinLinesL_splitLinesL (l : List Char) : joinLinesL (splitLinesL l) = l := by
  induction l with
  | nil => rfl
  | cons c rest ih =>
      obtain ⟨l2, ls, hsplit⟩ := splitLinesL_exists_cons rest
      rw [hsplit] at ih
      rw [splitLinesL]
      by_cases hc : c = '\n'
      · subst hc
        rw [if_pos rfl, hsplit]
        simpa [joinLinesL] using ih
      · rw [if_neg hc, hsplit]
        cases ls with
        | nil => simpa [joinLinesL] using congrArg (c :: ·) ih
        | cons l3 ls2 =>
            simp only [joinLinesL] at ih ⊢
            rw [← ih]
            simp

/-- Python split of `first`-line-plus-rest: the first line splits off whole. -/
theorem splitLinesL_front (first body : List Char) (h : '\n' ∉ first) :
    splitLinesL (first ++ '\n' :: body) = first :: splitLinesL body := by
  induction first with
  | nil => simp [splitLinesL]
  | cons c t ih =>
      have hc : c ≠ '\n' := fun e => h (e ▸ List.mem_cons_self c t)
      have ht : '\n' ∉ t := fun e => h (List.mem_cons_of_mem c e)
      rw [List.cons_append, splitLinesL, if_neg hc, ih ht]

/-- Right-stripping commutes with a non-whitespace head. -/
theorem rstrip_cons_of_not_space (a : Char) (l : List Char) (ha : pyIsSpace a = false) :
    ((a :: l).reverse.dropWhile pyIsSpace).reverse
      = a :: (l.reverse.dropWhile pyIsSpace).reverse := by
  rw [List.reverse_cons, List.dropWhile_append]
  split
  · rename_i h
    rw [List.isEmpty_iff] at h
    simp [h, List.dropWhile_cons, ha]
  · rw [List.reverse_append]
    simp

/-- `str.strip()` is the identity when both ends are non-whitespace. -/
theorem pyStripL_eq_self (a b : Char) (mid : List Char)
    (ha : pyIsSpace a = false) (hb : pyIsSpace b = false) :
    pyStripL (a :: (mid ++ [b])) = a :: (mid ++ [b]) := by
  rw [pyStripL, List.dropWhile_cons, if_neg (by simp [ha]),
    rstrip_cons_of_not_space a _ ha]
  congr 1
  rw [List.reverse_append]
  simp [List.dropWhile_cons, hb]

/-- A line starting with three backticks keeps that prefix under `strip()`. -/
theorem startsFence_through_strip (l : List Char) (h : startsFence l = true) :
    isFenceLine l = true := by
  rw [startsFence, beq_iff_eq] at h
  match l, h with
  | c1 :: c2 :: c3 :: t, h =>
      simp only [List.take, List.cons.injEq] at h
      obtain ⟨rfl, rfl, rfl, -⟩ := h
      rw [isFenceLine, pyStripL, List.dropWhile_cons, if_neg (by simp [pyIsSpace]),
        rstrip_cons_of_not_space _ _ (by simp [pyIsSpace]),
        rstrip_cons_of_not_space _ _ (by simp [pyIsSpace]),
        rstrip_cons_of_not_space _ _ (by simp [pyIsSpace])]
      simp [startsFence]

/-- A fence prefix survives appending. -/
theorem startsFence_append (l x : List Char) (h : startsFence l = true) :
    startsFence (l ++ x) = true := by
  rw [startsFence, beq_iff_eq] at h
  match l, h with
  | c1 :: c2 :: c3 :: t, h =>
      simp only [List.take, List.cons.injEq] at h
      obtain ⟨rfl, rfl, rfl, -⟩ := h
      simp [startsFence]

/-- C2: the spec says the fence-stripping stage removes only whole fence-marker
lines at the start and end of the blob and keeps interior backtick lines
verbatim (as does the code's own comment, "remove the first and last fence
lines"); the implementation instead filters out every line whose stripped form
starts with three backticks.  On `"```json\nA\n```mid\nB\n```"` the interior
line `"```mid"` is dropped: the output is `"A\nB"`, not the claimed
`"A\n```mid\nB"`. -/
theorem C2_interior_fence_lines_removed :
    stripFences "```json\nA\n```mid\nB\n```" = "A\nB" ∧
      ("A\nB" : String) ≠ "A\n```mid\nB" := by
  exact ⟨rfl, by decide⟩

/-- C7: fence stripping is the identity on trimmed text that does not begin
with a fence marker; on `"```json\n{...}\n```"` it yields exactly `"{...}"`;
and with an opening fence line but no further fence lines it drops the opening
line only. -/
theorem C7_fence_stripping_idempotence :
    (∀ s : String, pyStripL s.data = s.data → startsFence s.data = false →
        stripFences s = s)
    ∧ stripFences "```json\n\x7b...\x7d\n```" = "\x7b...\x7d"
    ∧ (∀ first body : List Char,
        startsFence first = true → '\n' ∉ first →
        pyStripL (first ++ '\n' :: body) = first ++ '\n' :: body →
        (∀ l ∈ splitLinesL body, isFenceLine l = false) →
        stripFences ⟨first ++ '\n' :: body⟩ = ⟨body⟩) := by
  refine ⟨?_, rfl, ?_⟩
  · intro s h1 h2
    simp only [stripFences, h1, h2, Bool.false_eq_true, if_false]
  · intro first body hf hnl hstrip hlines
    have hsf : startsFence (first ++ '\n' :: body) = true := startsFence_append _ _ hf
    simp only [stripFences, hstrip, hsf, if_true]
    rw [splitLinesL_front first body hnl]
    rw [List.filter_cons, startsFence_through_strip first hf]
    simp only [Bool.not_true, Bool.false_eq_true, if_false]
    rw [List.filter_eq_self.mpr (fun l hl => by simp [hlines l hl]),
      joinLinesL_splitLinesL]

/-- Witness for C7: the identity part at the fence-free trimmed text `"abc"`,
and the unterminated-fence part at `"```json" + "\n" + "xy"`. -/
theorem C7_fence_stripping_idempotence_witness :
    stripFences "abc" = "abc" ∧
      stripFences ⟨"```json".data ++ '\n' :: "xy".data⟩ = ⟨"xy".data⟩ := by
  constructor
  · exact C7_fence_stripping_idempotence.1 "abc" (by decide) (by decide)
  · exact C7_fence_stripping_idempotence.2.2 "```json".data "xy".data
      (by decide) (by decide) (by decide) (by decide)

/-! ## Lemmas about the validator -/

theorem mem_pushLoc {p : PathItem} {es : List VError} {e : VError}
    (h : e ∈ pushLoc p es) : ∃ e0, e0 ∈ es ∧ e = ⟨p :: e0.loc, e0.msg⟩ := by
  obtain ⟨e0, h0, rfl⟩ := List.mem_map.mp h
  exact ⟨e0, h0, rfl⟩

theorem laxContentOf_error_ne_nil (ms : JMembers) (ce : List VError)
    (h : laxContentOf ms = .error ce) : ce ≠ [] := by
  rw [laxContentOf] at h
  split at h
  all_goals first
    | exact Except.noConfusion h
    | (cases h
       exact List.cons_ne_nil _ _)

/-- Every double-failure error list of the smart union is non-empty and every
one of its errors carries a non-empty location path (at least the union
member's type-name tag). -/
theorem unionErrs_shape (ce he : List VError) (hce : ce ≠ []) :
    (pushLoc (.key "Content") ce ++ pushLoc (.key "Heading") he) ≠ [] ∧
      ∀ e ∈ pushLoc (.key "Content") ce ++ pushLoc (.key "Heading") he,
        e.loc ≠ [] := by
  constructor
  · simp [pushLoc, hce]
  · intro e he2
    rcases List.mem_append.mp he2 with h | h <;>
      · obtain ⟨e0, -, rfl⟩ := mem_pushLoc h
        simp

/-- C3: `{"content": "x"}` resolves to a Content node; a Heading object with
an empty `children` list is accepted; and the Heading object missing its
`children` key fails validation with an error naming the missing `children`
field (`Field required` at path `Heading.children`). -/
theorem C3_variant_disambiguation :
    smartNode (.obj (.cons "content" (.str "x") .nil)) = .ok (.content "x")
    ∧ smartNode (.obj (.cons "level" (.int 2)
        (.cons "text" (.str "t") (.cons "children" (.arr .nil) .nil))))
        = .ok (.heading 2 "t" [])
    ∧ ∃ es, smartNode (.obj (.cons "level" (.int 2) (.cons "text" (.str "t") .nil)))
          = .error es
        ∧ (⟨[.key "Heading", .key "children"], "Field required"⟩ : VError) ∈ es := by
  refine ⟨rfl, rfl,
    ⟨[⟨[.key "Content", .key "content"], "Field required"⟩,
      ⟨[.key "Heading", .key "children"], "Field required"⟩], rfl, ?_⟩⟩
  simp

/-- C4, counterexample: the claim requires an object that superficially
matches both variants (carrying a `content` key and `level`/`text`/`children`
keys) to fail validation; the code instead accepts it, coercing it to the
variant with the most fields set (a Heading), so it never returns an error on
this input. -/
theorem C4_counterexample_ambiguous_object_accepted :
    smartNode (.obj (.cons "content" (.str "x") (.cons "level" (.int 2)
        (.cons "text" (.str "t") (.cons "children" (.arr .nil) .nil)))))
      = .ok (.heading 2 "t" [])
    ∧ ∀ es, smartNode (.obj (.cons "content" (.str "x") (.cons "level" (.int 2)
        (.cons "text" (.str "t") (.cons "children" (.arr .nil) .nil)))))
      ≠ .error es := by
  refine ⟨rfl, fun es h => ?_⟩
  rw [show smartNode (.obj (.cons "content" (.str "x") (.cons "level" (.int 2)
      (.cons "text" (.str "t") (.cons "children" (.arr .nil) .nil)))))
    = .ok (.heading 2 "t" []) from rfl] at h
  cases h

/-- C4, amended: an object that fully matches neither shape fails with errors
identifying the offending path (every error path is non-empty, starting with
the union member tag), but an object with extra fields that superficially
matches both variants is silently resolved to the member with the most
fields set (Heading, whose match sets three fields against Content's one),
not rejected. -/
theorem C4_neither_shape_fails_both_shapes_coerces :
    smartNode (.obj (.cons "content" (.str "x") (.cons "level" (.int 2)
        (.cons "text" (.str "t") (.cons "children" (.arr .nil) .nil)))))
      = .ok (.heading 2 "t" [])
    ∧ ∀ v es, smartNode v = .error es → es ≠ [] ∧ ∀ e ∈ es, e.loc ≠ [] := by
  refine ⟨rfl, fun v es h => ?_⟩
  match v with
  | .null | .bool _ | .int _ | .str _ | .arr _ =>
      simp only [smartNode] at h
      injection h with h
      subst h
      exact unionErrs_shape _ _ (by simp)
  | .obj ms =>
      rw [smartNode] at h
      split at h
      · exact absurd h (by simp)
      · split at h
        · exact absurd h (by simp)
        · rename_i ce hce
          split at h
          · exact absurd h (by simp)
          · injection h with h
            subst h
            exact unionErrs_shape _ _ (laxContentOf_error_ne_nil ms ce hce)

/-- Witness for C4's amended claim: the non-object input `5` fails with a
non-empty error list whose errors all carry a non-empty path. -/
theorem C4_neither_shape_fails_both_shapes_coerces_witness :
    smartNode (.int 5) =
      .error [⟨[.key "Content"], "Input should be a valid dictionary or instance of Content"⟩,
        ⟨[.key "Heading"], "Input should be a valid dictionary or instance of Heading"⟩]
    ∧ ([⟨[.key "Content"], "Input should be a valid dictionary or instance of Content"⟩,
        ⟨[.key "Heading"], "Input should be a valid dictionary or instance of Heading"⟩]
          : List VError) ≠ []
    ∧ ∀ e ∈ ([⟨[.key "Content"], "Input should be a valid dictionary or instance of Content"⟩,
        ⟨[.key "Heading"], "Input should be a valid dictionary or instance of Heading"⟩]
          : List VError), e.loc ≠ [] := by
  refine ⟨rfl, ?_, ?_⟩
  · exact (C4_neither_shape_fails_both_shapes_coerces.2 (.int 5) _ rfl).1
  · exact (C4_neither_shape_fails_both_shapes_coerces.2 (.int 5) _ rfl).2

/-- C8: `level` must be an integer but no range is enforced: every integer,
including 0, -5 or 100, is accepted in an otherwise well-formed Heading. -/
theorem C8_level_unrestricted (lv : Int) (t : String) :
    smartNode (.obj (.cons "level" (.int lv)
        (.cons "text" (.str t) (.cons "children" (.arr .nil) .nil))))
      = .ok (.heading lv t []) := by
  simp [smartNode, strictNode, strictContentOf, lookupJ, strictChildrenOf, strictArr]

/-- C10: a string `level` that is the decimal representation of an integer is
accepted by the lax pass and stored as the corresponding integer. -/
theorem C10_numeric_string_level (s : String) (n : Int) (t : String)
    (h : intFromString s = some n) :
    smartNode (.obj (.cons "level" (.str s)
        (.cons "text" (.str t) (.cons "children" (.arr .nil) .nil))))
      = .ok (.heading n t []) := by
  simp [smartNode, strictNode, strictContentOf, lookupJ, strictChildrenOf,
    laxContentOf, laxLevel, laxText, laxChildrenField, laxArr, h]

/-- Witness for C10 at the string `"2"`. -/
theorem C10_numeric_string_level_witness :
    intFromString "2" = some 2
    ∧ smartNode (.obj (.cons "level" (.str "2")
        (.cons "text" (.str "t") (.cons "children" (.arr .nil) .nil))))
      = .ok (.heading 2 "t" []) :=
  ⟨rfl, C10_numeric_string_level "2" 2 "t" rfl⟩

/-- C5: whenever the fence-stripped text fails the structured parse, the
pipeline returns the `MalformedPayload` error kind carrying the parser's
diagnostic together with the original generated text in full; in particular
`"not json at all"` produces exactly that error, not a crash. -/
theorem C5_malformed_payload_error :
    (∀ s diag, jparse (stripFences s) = .error diag →
        runPipeline s = .error (.malformedPayload diag s))
    ∧ runPipeline "not json at all"
        = .error (.malformedPayload "Expecting value" "not json at all") := by
  refine ⟨fun s diag h => ?_, rfl⟩
  rw [runPipeline, h]

/-- Witness for C5 at the input `"not json at all"`. -/
theorem C5_malformed_payload_error_witness :
    jparse (stripFences "not json at all") = .error "Expecting value"
    ∧ runPipeline "not json at all"
        = .error (.malformedPayload "Expecting value" "not json at all") :=
  ⟨rfl, C5_malformed_payload_error.1 "not json at all" "Expecting value" rfl⟩

/-! ## Validation inverts dumping -/

mutual
theorem strictNode_dump : ∀ n : Node, strictNode (dumpNode n) = some n
  | .content s => by
      rw [dumpNode, strictNode, strictContentOf]
      simp [lookupJ]
  | .heading lv t ch => by
      have hch := strictArr_dump ch
      rw [dumpNode, strictNode, strictContentOf]
      simp [lookupJ, strictChildrenOf, hch]

theorem strictArr_dump : ∀ ns : List Node, strictArr (dumpNodes ns) = some ns
  | [] => by rw [dumpNodes, strictArr]
  | n :: ns => by
      rw [dumpNodes, strictArr, strictNode_dump n, strictArr_dump ns]
end

theorem smartNode_dump (n : Node) : smartNode (dumpNode n) = .ok n := by
  have h := strictNode_dump n
  match n with
  | .content s =>
      rw [dumpNode] at h ⊢
      rw [smartNode, h]
  | .heading lv t ch =>
      rw [dumpNode] at h ⊢
      rw [smartNode, h]

theorem laxArr_dump : ∀ (ns : List Node) (i : Nat), laxArr i (dumpNodes ns) = .ok ns
  | [], _ => by rw [dumpNodes, laxArr]
  | n :: ns, i => by
      rw [dumpNodes, laxArr, smartNode_dump n, laxArr_dump ns (i + 1)]

/-- Schema validation inverts `model_dump`. -/
theorem validateDoc_dump (d : MarkdownDocument) : validateDoc (dumpDoc d) = .ok d := by
  rw [dumpDoc, validateDoc]
  simp [lookupJ, laxArr_dump]

/-! ## The decimal renderer, inverted -/

theorem natDigitsFrom_acc (fuel : Nat) : ∀ (n : Nat) (acc : List Char),
    natDigitsFrom fuel n acc = natDigitsFrom fuel n [] ++ acc := by
  induction fuel with
  | zero => intro n acc; rfl
  | succ f ih =>
      intro n acc
      rw [natDigitsFrom, natDigitsFrom]
      by_cases h : n < 10
      · rw [if_pos h, if_pos h]
        rfl
      · rw [if_neg h, if_neg h, ih (n / 10) (digitChar n :: acc),
          ih (n / 10) [digitChar n]]
        simp

theorem natDigitsFrom_sufficient : ∀ n : Nat, ∀ fuel : Nat, 0 < fuel → n < 10 ^ fuel →
    natDigitsFrom fuel n [] = natDigits n := by
  intro n
  induction n using Nat.strong_induction_on with
  | _ n ih =>
    intro fuel hpos hlt
    match fuel, hpos with
    | f + 1, _ =>
      rw [natDigits, natDigitsFrom, natDigitsFrom]
      by_cases h : n < 10
      · rw [if_pos h, if_pos h]
      · rw [if_neg h, if_neg h, natDigitsFrom_acc f, natDigitsFrom_acc n]
        congr 1
        have h10 : 10 ≤ n := Nat.le_of_not_lt h
        have hdlt : n / 10 < n := Nat.div_lt_self (by omega) (by omega)
        have hf : 0 < f := by
          rcases Nat.eq_zero_or_pos f with rfl | hf
          · simp at hlt
            omega
          · exact hf
        have h1 : n / 10 < 10 ^ f := by
          rw [Nat.div_lt_iff_lt_mul (by omega)]
          calc n < 10 ^ (f + 1) := hlt
            _ = 10 ^ f * 10 := by rw [pow_succ]
        have h2 : n / 10 < 10 ^ n :=
          lt_of_le_of_lt (Nat.div_le_self n 10) (Nat.lt_pow_self (by norm_num) n)
        rw [ih (n / 10) hdlt f hf h1, ih (n / 10) hdlt n (by omega) h2]

/-- The canonical one-step unfolding of the digit renderer. -/
theorem natDigits_eq (n : Nat) :
    natDigits n = (if n < 10 then [] else natDigits (n / 10)) ++ [digitChar n] := by
  rw [natDigits, natDigitsFrom]
  by_cases h : n < 10
  · rw [if_pos h, if_pos h]
    rfl
  · rw [if_neg h, if_neg h, natDigitsFrom_acc]
    congr 1
    have h2 : n / 10 < 10 ^ n :=
      lt_of_le_of_lt (Nat.div_le_self n 10) (Nat.lt_pow_self (by norm_num) n)
    exact natDigitsFrom_sufficient (n / 10) n (by omega) h2

theorem char_ofNat_toNat_small : ∀ k < 128, (Char.ofNat k).toNat = k := by decide

theorem digitChar_toNat (n : Nat) : (digitChar n).toNat = 48 + n % 10 := by
  have h : n % 10 < 10 := Nat.mod_lt _ (by omega)
  rw [digitChar]
  exact char_ofNat_toNat_small _ (by omega)

theorem isDigitC_digitChar (n : Nat) : isDigitC (digitChar n) = true := by
  have h : n % 10 < 10 := Nat.mod_lt _ (by omega)
  simp only [isDigitC, digitChar_toNat, Bool.and_eq_true, decide_eq_true_eq]
  omega

theorem natDigits_ne_nil (n : Nat) : natDigits n ≠ [] := by
  rw [natDigits_eq]
  simp

theorem natDigits_all_digits : ∀ n : Nat, ∀ c ∈ natDigits n, isDigitC c = true := by
  intro n
  induction n using Nat.strong_induction_on with
  | _ n ih =>
    rw [natDigits_eq]
    intro c hmem
    rcases List.mem_append.mp hmem with hin | hin
    · by_cases h10 : n < 10
      · simp [h10] at hin
      · rw [if_neg h10] at hin
        have hsmall : n / 10 < n := Nat.div_lt_self (by omega) (by omega)
        exact ih (n / 10) hsmall c hin
    · rw [List.mem_singleton] at hin
      subst hin
      exact isDigitC_digitChar n

theorem natDigits_cons (n : Nat) :
    ∃ c t, natDigits n = c :: t ∧ isDigitC c = true := by
  match h : natDigits n with
  | [] => exact absurd h (natDigits_ne_nil n)
  | c :: t => exact ⟨c, t, rfl, natDigits_all_digits n c (h ▸ List.mem_cons_self ..)⟩

theorem digitsToNat_natDigits : ∀ n : Nat, digitsToNat (natDigits n) = n := by
  intro n
  induction n using Nat.strong_induction_on with
  | _ n ih =>
    rw [natDigits_eq, digitsToNat, List.foldl_append]
    by_cases h : n < 10
    · simp only [if_pos h, List.foldl_nil, List.foldl_cons, digitChar_toNat]
      omega
    · rw [if_neg h]
      have := ih (n / 10) (Nat.div_lt_self (by omega) (by omega))
      rw [digitsToNat] at this
      simp only [List.foldl_cons, List.foldl_nil, this, digitChar_toNat]
      omega

/-- A list that cannot extend a digit run: empty or headed by a non-digit. -/
def noDigitHead : List Char → Bool
  | [] => true
  | c :: _ => !isDigitC c

theorem takeDigits_stop (cs : List Char) (h : noDigitHead cs = true) :
    takeDigits cs = ([], cs) := by
  match cs with
  | [] => rfl
  | c :: t =>
      rw [noDigitHead, Bool.not_eq_true'] at h
      rw [takeDigits, h]
      simp

theorem takeDigits_run : ∀ ds : List Char, (∀ c ∈ ds, isDigitC c = true) →
    ∀ rest : List Char, noDigitHead rest = true →
    takeDigits (ds ++ rest) = (ds, rest) := by
  intro ds
  induction ds with
  | nil =>
      intro _ rest hrest
      simpa using takeDigits_stop rest hrest
  | cons c t ih =>
      intro hds rest hrest
      have hc : isDigitC c = true := hds c (List.mem_cons_self ..)
      rw [List.cons_append, takeDigits, hc,
        ih (fun x hx => hds x (List.mem_cons_of_mem c hx)) rest hrest]
      simp

theorem isDigitC_toNat {c : Char} (h : isDigitC c = true) :
    48 ≤ c.toNat ∧ c.toNat ≤ 57 := by
  simp only [isDigitC, Bool.and_eq_true, decide_eq_true_eq] at h
  exact h

theorem digit_ne {c : Char} (h : isDigitC c = true) (k : Char)
    (hk : ¬(48 ≤ k.toNat ∧ k.toNat ≤ 57)) : c ≠ k := by
  obtain ⟨h1, h2⟩ := isDigitC_toNat h
  intro he
  exact hk ⟨he ▸ h1, he ▸ h2⟩

/-- A digit character is none of the characters that open another token. -/
theorem digit_facts {c : Char} (h : isDigitC c = true) :
    c ≠ '-' ∧ c ≠ 'n' ∧ c ≠ 't' ∧ c ≠ 'f' ∧ c ≠ '"' ∧ c ≠ '[' ∧ c ≠ '\x7b'
      ∧ jsonWs c = false := by
  refine ⟨digit_ne h '-' (by decide), digit_ne h 'n' (by decide),
    digit_ne h 't' (by decide), digit_ne h 'f' (by decide),
    digit_ne h '"' (by decide), digit_ne h '[' (by decide),
    digit_ne h '\x7b' (by decide), ?_⟩
  simp only [jsonWs, Bool.or_eq_false_iff, decide_eq_false_iff_not]
  exact ⟨⟨⟨digit_ne h ' ' (by decide), digit_ne h '\t' (by decide)⟩,
    digit_ne h '\n' (by decide)⟩, digit_ne h '\r' (by decide)⟩

theorem parseNumber_minus (cs : List Char) :
    parseNumber ('-' :: cs) = (match takeDigits cs with
      | ([], _) => .error "Expecting value"
      | (ds, r) => .ok (-(digitsToNat ds : Int), r)) := rfl

theorem parseNumber_not_minus (c : Char) (t : List Char) (h : ¬c = '-') :
    parseNumber (c :: t) = (match takeDigits (c :: t) with
      | ([], _) => .error "Expecting value"
      | (ds, r) => .ok ((digitsToNat ds : Int), r)) := by
  rw [parseNumber.eq_def]
  split
  · rename_i heq
    rw [List.cons.injEq] at heq
    exact absurd heq.1 h
  · rfl

/-- The integer renderer feeds back through `parseNumber` whenever the
remainder cannot extend the digit run. -/
theorem parseNumber_intChars (i : Int) (rest : List Char)
    (hrest : noDigitHead rest = true) :
    parseNumber (intChars i ++ rest) = .ok (i, rest) := by
  obtain ⟨c, t, hct, hc⟩ := natDigits_cons i.natAbs
  have hv : digitsToNat (c :: t) = i.natAbs := hct ▸ digitsToNat_natDigits i.natAbs
  rw [intChars]
  by_cases hneg : i < 0
  · rw [if_pos hneg, List.cons_append, parseNumber_minus,
      takeDigits_run _ (natDigits_all_digits _) _ hrest, hct]
    have hi : -((digitsToNat (c :: t) : Nat) : Int) = i := by rw [hv]; omega
    simp [hi]
  · rw [if_neg hneg, hct, List.cons_append,
      parseNumber_not_minus c _ (digit_facts hc).1, ← List.cons_append, ← hct,
      takeDigits_run _ (natDigits_all_digits _) _ hrest, hct]
    have hi : ((digitsToNat (c :: t) : Nat) : Int) = i := by rw [hv]; omega
    simp [hi]

/-! ## String escaping, inverted -/

theorem hexVal_hexDigitChar (k : Nat) (h : k < 16) :
    hexVal (hexDigitChar k) = some k := by
  interval_cases k <;> decide

theorem parseStrBody_escapeChar (c : Char) (acc rest : List Char) :
    parseStrBody acc (escapeChar c ++ rest) = parseStrBody (c :: acc) rest := by
  by_cases h1 : c = '"'
  · subst h1; rfl
  by_cases h2 : c = '\\'
  · subst h2; rfl
  by_cases h3 : c = '\n'
  · subst h3; rfl
  by_cases h4 : c = '\r'
  · subst h4; rfl
  by_cases h5 : c = '\t'
  · subst h5; rfl
  by_cases h6 : c = Char.ofNat 8
  · subst h6; rfl
  by_cases h7 : c = Char.ofNat 12
  · subst h7; rfl
  rw [escapeChar, if_neg h1, if_neg h2, if_neg h3, if_neg h4, if_neg h5,
    if_neg h6, if_neg h7]
  by_cases h8 : c.toNat < 32
  · rw [if_pos h8]
    have hd : c.toNat / 16 < 16 := by omega
    have hm : c.toNat % 16 < 16 := Nat.mod_lt _ (by omega)
    have harith : ((0 * 16 + 0) * 16 + c.toNat / 16) * 16 + c.toNat % 16 = c.toNat := by
      omega
    simp only [List.cons_append, List.nil_append, parseStrBody,
      show hexVal '0' = some 0 from rfl, hexVal_hexDigitChar _ hd,
      hexVal_hexDigitChar _ hm]
    rw [harith, Char.ofNat_toNat]
    rfl
  · rw [if_neg h8]
    rw [List.singleton_append, parseStrBody.eq_def]
    split
    · rename_i heq
      rw [List.cons.injEq] at heq
      exact absurd heq.1 h1
    · rename_i heq
      rw [List.cons.injEq] at heq
      exact absurd heq.1 h2
    · rename_i heq
      rw [List.cons.injEq] at heq
      exact absurd heq.1 h2
    · rename_i heq
      rw [List.cons.injEq] at heq
      obtain ⟨rfl, rfl⟩ := heq
      rw [if_neg h8]
    · rename_i heq
      cases heq

theorem parseStrBody_escape_run : ∀ (cs acc rest : List Char),
    parseStrBody acc (cs.flatMap escapeChar ++ '"' :: rest)
      = .ok (⟨acc.reverse ++ cs⟩, rest) := by
  intro cs
  induction cs with
  | nil =>
      intro acc rest
      simp [parseStrBody]
  | cons c t ih =>
      intro acc rest
      rw [List.flatMap_cons, List.append_assoc, parseStrBody_escapeChar, ih]
      simp

/-- A rendered string literal body parses back to the string itself. -/
theorem parseStrBody_quote (s : String) (rest : List Char) :
    parseStrBody [] (escapeStr s ++ '"' :: rest) = .ok (s, rest) := by
  rw [escapeStr, parseStrBody_escape_run]
  rfl

/-! ## Whitespace handling -/

theorem skipWs_cons_not (c : Char) (x : List Char) (h : jsonWs c = false) :
    skipWs (c :: x) = c :: x := by
  rw [skipWs, h]
  simp

theorem skipWs_wsPre : ∀ pre : List Char, (∀ c ∈ pre, jsonWs c = true) →
    ∀ x : List Char, skipWs (pre ++ x) = skipWs x := by
  intro pre
  induction pre with
  | nil => intro _ x; rfl
  | cons c t ih =>
      intro h x
      rw [List.cons_append, skipWs, h c (List.mem_cons_self ..)]
      simp only [if_true]
      exact ih (fun a ha => h a (List.mem_cons_of_mem c ha)) x

theorem padL_ws : ∀ d : Nat, ∀ c ∈ padL d, jsonWs c = true := by
  intro d
  induction d with
  | zero => simp [padL]
  | succ d ih =>
      intro c hc
      rw [padL] at hc
      simp only [List.mem_cons] at hc
      rcases hc with rfl | rfl | h
      · decide
      · decide
      · exact ih c h

theorem skipWs_padL (d : Nat) (x : List Char) : skipWs (padL d ++ x) = skipWs x :=
  skipWs_wsPre (padL d) (padL_ws d) x

/-- The first character of any rendered value: never whitespace, never a
closing bracket or brace. -/
theorem renderVal_head (d : Nat) (v : JValue) :
    ∃ c t, renderVal d v = c :: t ∧ jsonWs c = false ∧ c ≠ ']' ∧ c ≠ '\x7d' := by
  match v with
  | .null => exact ⟨'n', _, rfl, by decide, by decide, by decide⟩
  | .bool true => exact ⟨'t', _, rfl, by decide, by decide, by decide⟩
  | .bool false => exact ⟨'f', _, rfl, by decide, by decide, by decide⟩
  | .str s => exact ⟨'"', _, rfl, by decide, by decide, by decide⟩
  | .arr .nil => exact ⟨'[', _, rfl, by decide, by decide, by decide⟩
  | .arr (.cons v t) => exact ⟨'[', _, rfl, by decide, by decide, by decide⟩
  | .obj .nil => exact ⟨'\x7b', _, rfl, by decide, by decide, by decide⟩
  | .obj (.cons k v t) => exact ⟨'\x7b', _, rfl, by decide, by decide, by decide⟩
  | .int n =>
      rw [renderVal, intChars]
      by_cases hneg : n < 0
      · rw [if_pos hneg]
        exact ⟨'-', _, rfl, by decide, by decide, by decide⟩
      · rw [if_neg hneg]
        obtain ⟨c, t, hct, hc⟩ := natDigits_cons n.natAbs
        exact ⟨c, t, hct, (digit_facts hc).2.2.2.2.2.2.2,
          digit_ne hc ']' (by decide), digit_ne hc '\x7d' (by decide)⟩

theorem skipWs_render (d : Nat) (v : JValue) (x : List Char) :
    skipWs (renderVal d v ++ x) = renderVal d v ++ x := by
  obtain ⟨c, t, hct, hws, -, -⟩ := renderVal_head d v
  rw [hct, List.cons_append, skipWs_cons_not _ _ hws]

/-! ## One-token steps of the parser -/

theorem parseVal_wsPre (fuel : Nat) (pre x : List Char)
    (h : ∀ c ∈ pre, jsonWs c = true) :
    parseVal (fuel + 1) (pre ++ x) = parseVal (fuel + 1) x := by
  rw [parseVal, parseVal, skipWs_wsPre pre h]

theorem parseVal_minus_step (fuel : Nat) (x : List Char) :
    parseVal (fuel + 1) ('-' :: x)
      = (match parseNumber ('-' :: x) with
         | .ok (nv, r2) => .ok (.int nv, r2)
         | .error e => .error e) := by
  rw [parseVal, skipWs_cons_not _ _ (by decide)]
  rfl

theorem parseVal_digit_step (fuel : Nat) (c : Char) (x : List Char)
    (hc : isDigitC c = true) :
    parseVal (fuel + 1) (c :: x)
      = (match parseNumber (c :: x) with
         | .ok (nv, r2) => .ok (.int nv, r2)
         | .error e => .error e) := by
  obtain ⟨hm, hn, ht, hf, hq, hbk, hbc, hws⟩ := digit_facts hc
  rw [parseVal, skipWs_cons_not _ _ hws]
  split
  · rename_i heq
    rw [List.cons.injEq] at heq
    exact absurd heq.1 hq
  · rename_i heq
    rw [List.cons.injEq] at heq
    exact absurd heq.1 hbk
  · rename_i heq
    rw [List.cons.injEq] at heq
    exact absurd heq.1 hbc
  · rename_i heq
    rw [List.cons.injEq] at heq
    exact absurd heq.1 hn
  · rename_i heq
    rw [List.cons.injEq] at heq
    exact absurd heq.1 ht
  · rename_i heq
    rw [List.cons.injEq] at heq
    exact absurd heq.1 hf
  · rename_i c2 rest2 heq
    rw [List.cons.injEq] at heq
    obtain ⟨h1, h2⟩ := heq
    subst h1
    subst h2
    rw [hc]
    simp
  · rename_i heq
    cases heq

theorem parseVal_quote_step (fuel : Nat) (x : List Char) :
    parseVal (fuel + 1) ('"' :: x)
      = (match parseStrBody [] x with
         | .ok (s, r2) => .ok (.str s, r2)
         | .error e => .error e) := by
  rw [parseVal, skipWs_cons_not _ _ (by decide)]
  rfl

theorem parseVal_lbrack_step (fuel : Nat) (x : List Char) :
    parseVal (fuel + 1) ('[' :: x)
      = (match skipWs x with
         | ']' :: r2 => .ok (.arr .nil, r2)
         | _ => match parseItems fuel x with
                | .ok (items, r2) => .ok (.arr items, r2)
                | .error e => .error e) := by
  rw [parseVal, skipWs_cons_not _ _ (by decide)]
  rfl

theorem parseVal_lbrace_step (fuel : Nat) (x : List Char) :
    parseVal (fuel + 1) ('\x7b' :: x)
      = (match skipWs x with
         | '\x7d' :: r2 => .ok (.obj .nil, r2)
         | _ => match parseMembersJ fuel x with
                | .ok (ms, r2) => .ok (.obj ms, r2)
                | .error e => .error e) := by
  rw [parseVal, skipWs_cons_not _ _ (by decide)]
  rfl

theorem skipWs_cons_ws (c : Char) (x : List Char) (h : jsonWs c = true) :
    skipWs (c :: x) = skipWs x := by
  rw [skipWs, h]
  simp

theorem jNeed_pos (v : JValue) : 1 ≤ jNeed v := by
  cases v <;> simp [jNeed]

theorem jNeedArr_pos (a : JArr) : 1 ≤ jNeedArr a := by
  cases a <;> simp [jNeedArr]

theorem jNeedMem_pos (ms : JMembers) : 1 ≤ jNeedMem ms := by
  cases ms <;> simp [jNeedMem]

/-! ## Append normal forms of the renderers -/

theorem renderItems_one_append (d : Nat) (v : JValue) (x : List Char) :
    renderItems d (.cons v .nil) ++ x = padL d ++ (renderVal d v ++ x) := by
  rw [renderItems, List.append_assoc]

theorem renderItems_more_append (d : Nat) (v v2 : JValue) (t : JArr) (x : List Char) :
    renderItems d (.cons v (.cons v2 t)) ++ x
      = padL d ++ (renderVal d v ++ (',' :: ('\n' :: (renderItems d (.cons v2 t) ++ x)))) := by
  rw [renderItems]
  simp [List.append_assoc]

theorem renderMembers_one_append (d : Nat) (k : String) (v : JValue) (x : List Char) :
    renderMembers d (.cons k v .nil) ++ x
      = padL d ++ ('"' :: (escapeStr k ++ ('"' :: (':' :: (' ' :: (renderVal d v ++ x)))))) := by
  rw [renderMembers, quoteStr]
  simp [List.append_assoc]

theorem renderMembers_more_append (d : Nat) (k k2 : String) (v v2 : JValue)
    (t : JMembers) (x : List Char) :
    renderMembers d (.cons k v (.cons k2 v2 t)) ++ x
      = padL d ++ ('"' :: (escapeStr k ++ ('"' :: (':' :: (' ' :: (renderVal d v
          ++ (',' :: ('\n' :: (renderMembers d (.cons k2 v2 t) ++ x))))))))) := by
  rw [renderMembers, quoteStr]
  simp [List.append_assoc]

/-- After the newline and indentation, a non-empty item list starts with the
first value's head character, which closes nothing. -/
theorem skipWs_items_head (d : Nat) (v : JValue) (t : JArr) (x : List Char) :
    ∃ c ct, skipWs ('\n' :: (renderItems d (.cons v t) ++ x)) = c :: ct
      ∧ c ≠ ']' ∧ c ≠ '\x7d' := by
  obtain ⟨c, vt, hct, hws, hbr, hbc⟩ := renderVal_head d v
  cases t with
  | nil =>
      refine ⟨c, vt ++ x, ?_, hbr, hbc⟩
      rw [renderItems_one_append, skipWs_cons_ws _ _ (by decide), skipWs_padL,
        hct, List.cons_append, skipWs_cons_not _ _ hws]
  | cons v2 t2 =>
      refine ⟨c, vt ++ (',' :: ('\n' :: (renderItems d (.cons v2 t2) ++ x))), ?_, hbr, hbc⟩
      rw [renderItems_more_append, skipWs_cons_ws _ _ (by decide), skipWs_padL,
        hct, List.cons_append, skipWs_cons_not _ _ hws]

/-- After the newline and indentation, a non-empty member list starts with the
key's opening quote. -/
theorem skipWs_members_head (d : Nat) (k : String) (v : JValue) (t : JMembers)
    (x : List Char) :
    ∃ ct, skipWs ('\n' :: (renderMembers d (.cons k v t) ++ x)) = '"' :: ct := by
  cases t with
  | nil =>
      refine ⟨escapeStr k ++ ('"' :: (':' :: (' ' :: (renderVal d v ++ x)))), ?_⟩
      rw [renderMembers_one_append, skipWs_cons_ws _ _ (by decide), skipWs_padL,
        skipWs_cons_not _ _ (by decide)]
  | cons k2 v2 t2 =>
      refine ⟨escapeStr k ++ ('"' :: (':' :: (' ' :: (renderVal d v
        ++ (',' :: ('\n' :: (renderMembers d (.cons k2 v2 t2) ++ x))))))), ?_⟩
      rw [renderMembers_more_append, skipWs_cons_ws _ _ (by decide), skipWs_padL,
        skipWs_cons_not _ _ (by decide)]

/-! ## The parser inverts the renderer -/

mutual
theorem rtVal : ∀ (fuel : Nat) (v : JValue) (d : Nat) (pre rest : List Char),
    (∀ c ∈ pre, jsonWs c = true) → jNeed v ≤ fuel →
    noDigitHead rest = true → uniqVal v = true →
    parseVal fuel (pre ++ (renderVal d v ++ rest)) = .ok (v, rest)
  | 0, v, _, _, _, _, hfuel, _, _ => by
      have := jNeed_pos v
      omega
  | fuel + 1, .null, d, pre, rest, hpre, _, _, _ => by
      rw [parseVal_wsPre fuel pre _ hpre,
        show renderVal d .null ++ rest = 'n' :: 'u' :: 'l' :: 'l' :: rest from rfl,
        parseVal, skipWs_cons_not _ _ (by decide)]
      rfl
  | fuel + 1, .bool true, d, pre, rest, hpre, _, _, _ => by
      rw [parseVal_wsPre fuel pre _ hpre,
        show renderVal d (.bool true) ++ rest = 't' :: 'r' :: 'u' :: 'e' :: rest from rfl,
        parseVal, skipWs_cons_not _ _ (by decide)]
      rfl
  | fuel + 1, .bool false, d, pre, rest, hpre, _, _, _ => by
      rw [parseVal_wsPre fuel pre _ hpre,
        show renderVal d (.bool false) ++ rest
          = 'f' :: 'a' :: 'l' :: 's' :: 'e' :: rest from rfl,
        parseVal, skipWs_cons_not _ _ (by decide)]
      rfl
  | fuel + 1, .int n, d, pre, rest, hpre, _, hrest, _ => by
      rw [parseVal_wsPre fuel pre _ hpre]
      by_cases hneg : n < 0
      · rw [show renderVal d (.int n) ++ rest = '-' :: (natDigits n.natAbs ++ rest) from by
          rw [renderVal, intChars, if_pos hneg, List.cons_append],
          parseVal_minus_step]
        have hp := parseNumber_intChars n rest hrest
        rw [intChars, if_pos hneg, List.cons_append] at hp
        rw [hp]
      · obtain ⟨c, ct, hct, hc⟩ := natDigits_cons n.natAbs
        rw [show renderVal d (.int n) ++ rest = c :: (ct ++ rest) from by
          rw [renderVal, intChars, if_neg hneg, hct, List.cons_append],
          parseVal_digit_step fuel c _ hc]
        have hp := parseNumber_intChars n rest hrest
        rw [intChars, if_neg hneg, hct, List.cons_append] at hp
        rw [hp]
  | fuel + 1, .str s, d, pre, rest, hpre, _, _, _ => by
      rw [parseVal_wsPre fuel pre _ hpre,
        show renderVal d (.str s) ++ rest = '"' :: (escapeStr s ++ ('"' :: rest)) from by
          rw [renderVal, quoteStr]
          simp [List.append_assoc],
        parseVal_quote_step, parseStrBody_quote]
  | fuel + 1, .arr .nil, d, pre, rest, hpre, _, _, _ => by
      rw [parseVal_wsPre fuel pre _ hpre,
        show renderVal d (.arr .nil) ++ rest = '[' :: (']' :: rest) from rfl,
        parseVal_lbrack_step, skipWs_cons_not _ _ (by decide)]
      rfl
  | fuel + 1, .arr (.cons v t), d, pre, rest, hpre, hfuel, hrest, huniq => by
      rw [jNeed] at hfuel
      rw [uniqVal] at huniq
      rw [parseVal_wsPre fuel pre _ hpre,
        show renderVal d (.arr (.cons v t)) ++ rest
            = '[' :: ('\n' :: (renderItems (d + 1) (.cons v t)
                ++ ('\n' :: (padL d ++ (']' :: rest))))) from by
          rw [renderVal]
          simp [List.append_assoc],
        parseVal_lbrack_step]
      obtain ⟨c, ct, hhead, hbr, -⟩ :=
        skipWs_items_head (d + 1) v t ('\n' :: (padL d ++ (']' :: rest)))
      rw [hhead]
      split
      · rename_i heq
        rw [List.cons.injEq] at heq
        exact absurd heq.1 hbr
      · have hitems := rtItems fuel v t (d + 1) d ['\n'] rest
          (by intro a ha
              simp only [List.mem_singleton] at ha
              subst ha
              decide)
          (by omega) huniq
        simp only [List.cons_append, List.nil_append] at hitems
        rw [hitems]
  | fuel + 1, .obj .nil, d, pre, rest, hpre, _, _, _ => by
      rw [parseVal_wsPre fuel pre _ hpre,
        show renderVal d (.obj .nil) ++ rest = '\x7b' :: ('\x7d' :: rest) from rfl,
        parseVal_lbrace_step, skipWs_cons_not _ _ (by decide)]
      rfl
  | fuel + 1, .obj (.cons k v t), d, pre, rest, hpre, hfuel, hrest, huniq => by
      rw [jNeed] at hfuel
      rw [uniqVal] at huniq
      rw [parseVal_wsPre fuel pre _ hpre,
        show renderVal d (.obj (.cons k v t)) ++ rest
            = '\x7b' :: ('\n' :: (renderMembers (d + 1) (.cons k v t)
                ++ ('\n' :: (padL d ++ ('\x7d' :: rest))))) from by
          rw [renderVal]
          simp [List.append_assoc],
        parseVal_lbrace_step]
      obtain ⟨ct, hhead⟩ :=
        skipWs_members_head (d + 1) k v t ('\n' :: (padL d ++ ('\x7d' :: rest)))
      rw [hhead]
      split
      · rename_i heq
        rw [List.cons.injEq] at heq
        exact absurd heq.1 (by decide)
      · have hmems := rtMembers fuel k v t (d + 1) d ['\n'] rest
          (by intro a ha
              simp only [List.mem_singleton] at ha
              subst ha
              decide)
          (by omega) huniq
        simp only [List.cons_append, List.nil_append] at hmems
        rw [hmems]

theorem rtItems : ∀ (fuel : Nat) (v : JValue) (t : JArr) (d dc : Nat) (pre rest : List Char),
    (∀ c ∈ pre, jsonWs c = true) → jNeedArr (.cons v t) ≤ fuel →
    uniqArr (.cons v t) = true →
    parseItems fuel
        (pre ++ (renderItems d (.cons v t) ++ ('\n' :: (padL dc ++ (']' :: rest)))))
      = .ok (.cons v t, rest)
  | 0, v, t, _, _, _, _, _, hfuel, _ => by
      rw [jNeedArr] at hfuel
      omega
  | fuel + 1, v, .nil, d, dc, pre, rest, hpre, hfuel, huniq => by
      rw [jNeedArr] at hfuel
      rw [uniqArr, Bool.and_eq_true] at huniq
      rw [parseItems,
        show pre ++ (renderItems d (.cons v .nil) ++ ('\n' :: (padL dc ++ (']' :: rest))))
            = (pre ++ padL d) ++ (renderVal d v ++ ('\n' :: (padL dc ++ (']' :: rest)))) from by
          rw [renderItems_one_append]
          simp [List.append_assoc]]
      have hone : jNeedArr JArr.nil = 1 := rfl
      have hv := rtVal fuel v d (pre ++ padL d) ('\n' :: (padL dc ++ (']' :: rest)))
        (by intro a ha
            rcases List.mem_append.mp ha with h | h
            exacts [hpre a h, padL_ws d a h])
        (by omega) rfl huniq.1
      simp only [hv]
      rw [skipWs_cons_ws _ _ (by decide), skipWs_padL, skipWs_cons_not _ _ (by decide)]
      rfl
  | fuel + 1, v, .cons v2 t2, d, dc, pre, rest, hpre, hfuel, huniq => by
      rw [jNeedArr] at hfuel
      rw [uniqArr, Bool.and_eq_true] at huniq
      rw [parseItems,
        show pre ++ (renderItems d (.cons v (.cons v2 t2))
              ++ ('\n' :: (padL dc ++ (']' :: rest))))
            = (pre ++ padL d) ++ (renderVal d v ++ (',' :: ('\n' :: (renderItems d (.cons v2 t2)
                ++ ('\n' :: (padL dc ++ (']' :: rest))))))) from by
          rw [renderItems_more_append]
          simp [List.append_assoc]]
      have hv := rtVal fuel v d (pre ++ padL d)
        (',' :: ('\n' :: (renderItems d (.cons v2 t2) ++ ('\n' :: (padL dc ++ (']' :: rest))))))
        (by intro a ha
            rcases List.mem_append.mp ha with h | h
            exacts [hpre a h, padL_ws d a h])
        (by have := jNeedArr_pos (.cons v2 t2); omega) rfl huniq.1
      simp only [hv]
      rw [skipWs_cons_not _ _ (by decide)]
      have hrec := rtItems fuel v2 t2 d dc ['\n'] rest
        (by intro a ha
            simp only [List.mem_singleton] at ha
            subst ha
            decide)
        (by have := jNeed_pos v; omega) huniq.2
      simp only [List.cons_append, List.nil_append] at hrec
      simp only [hrec]

theorem rtMembers : ∀ (fuel : Nat) (k : String) (v : JValue) (t : JMembers) (d dc : Nat)
    (pre rest : List Char),
    (∀ c ∈ pre, jsonWs c = true) → jNeedMem (.cons k v t) ≤ fuel →
    uniqMem (.cons k v t) = true →
    parseMembersJ fuel
        (pre ++ (renderMembers d (.cons k v t) ++ ('\n' :: (padL dc ++ ('\x7d' :: rest)))))
      = .ok (.cons k v t, rest)
  | 0, k, v, t, _, _, _, _, _, hfuel, _ => by
      rw [jNeedMem] at hfuel
      omega
  | fuel + 1, k, v, .nil, d, dc, pre, rest, hpre, hfuel, huniq => by
      rw [jNeedMem] at hfuel
      rw [uniqMem, Bool.and_eq_true, Bool.and_eq_true] at huniq
      rw [parseMembersJ,
        show pre ++ (renderMembers d (.cons k v .nil) ++ ('\n' :: (padL dc ++ ('\x7d' :: rest))))
            = (pre ++ padL d) ++ ('"' :: (escapeStr k ++ ('"' :: (':' :: (' ' :: (renderVal d v
                ++ ('\n' :: (padL dc ++ ('\x7d' :: rest))))))))) from by
          rw [renderMembers_one_append]
          simp [List.append_assoc],
        skipWs_wsPre (pre ++ padL d)
          (by intro a ha
              rcases List.mem_append.mp ha with h | h
              exacts [hpre a h, padL_ws d a h]),
        skipWs_cons_not _ _ (by decide)]
      simp only [parseStrBody_quote]
      rw [skipWs_cons_not _ _ (by decide)]
      have hv := rtVal fuel v d [' '] ('\n' :: (padL dc ++ ('\x7d' :: rest)))
        (by intro a ha
            simp only [List.mem_singleton] at ha
            subst ha
            decide)
        (by omega) rfl huniq.1.2
      simp only [List.cons_append, List.nil_append] at hv
      simp only [hv]
      rw [skipWs_cons_ws _ _ (by decide), skipWs_padL, skipWs_cons_not _ _ (by decide)]
      rfl
  | fuel + 1, k, v, .cons k2 v2 t2, d, dc, pre, rest, hpre, hfuel, huniq => by
      rw [jNeedMem] at hfuel
      rw [uniqMem, Bool.and_eq_true, Bool.and_eq_true] at huniq
      rw [parseMembersJ,
        show pre ++ (renderMembers d (.cons k v (.cons k2 v2 t2))
              ++ ('\n' :: (padL dc ++ ('\x7d' :: rest))))
            = (pre ++ padL d) ++ ('"' :: (escapeStr k ++ ('"' :: (':' :: (' ' :: (renderVal d v
                ++ (',' :: ('\n' :: (renderMembers d (.cons k2 v2 t2)
                  ++ ('\n' :: (padL dc ++ ('\x7d' :: rest)))))))))))) from by
          rw [renderMembers_more_append]
          simp [List.append_assoc],
        skipWs_wsPre (pre ++ padL d)
          (by intro a ha
              rcases List.mem_append.mp ha with h | h
              exacts [hpre a h, padL_ws d a h]),
        skipWs_cons_not _ _ (by decide)]
      simp only [parseStrBody_quote]
      rw [skipWs_cons_not _ _ (by decide)]
      have hv := rtVal fuel v d [' ']
        (',' :: ('\n' :: (renderMembers d (.cons k2 v2 t2)
          ++ ('\n' :: (padL dc ++ ('\x7d' :: rest))))))
        (by intro a ha
            simp only [List.mem_singleton] at ha
            subst ha
            decide)
        (by have := jNeedMem_pos (.cons k2 v2 t2); omega) rfl huniq.1.2
      simp only [List.cons_append, List.nil_append] at hv
      simp only [hv]
      rw [skipWs_cons_not _ _ (by decide)]
      have hrec := rtMembers fuel k2 v2 t2 d dc ['\n'] rest
        (by intro a ha
            simp only [List.mem_singleton] at ha
            subst ha
            decide)
        (by have := jNeed_pos v; omega) huniq.2
      simp only [List.cons_append, List.nil_append] at hrec
      simp only [hrec]
      have hnone : lookupJ (.cons k2 v2 t2) k = none :=
        Option.isNone_iff_eq_none.mp huniq.1.1
      rw [insertMember, hnone]
end

/-! ## Assembling the full round trip -/

theorem padL_length (d : Nat) : (padL d).length = 2 * d := by
  induction d with
  | zero => rfl
  | succ d ih =>
      rw [padL]
      simp [ih]
      omega

theorem intChars_length_pos (i : Int) : 1 ≤ (intChars i).length := by
  obtain ⟨c, t, hct, -⟩ := natDigits_cons i.natAbs
  rw [intChars]
  by_cases hneg : i < 0
  · simp [if_pos hneg]
  · simp [if_neg hneg, hct]

mutual
theorem jNeed_le_render : ∀ (d : Nat) (v : JValue), jNeed v ≤ (renderVal d v).length
  | _, .null => by simp [jNeed, renderVal]
  | _, .bool true => by simp [jNeed, renderVal]
  | _, .bool false => by simp [jNeed, renderVal]
  | d, .int n => by
      have := intChars_length_pos n
      rw [jNeed, renderVal]
      omega
  | _, .str s => by simp [jNeed, renderVal, quoteStr]
  | _, .arr .nil => by simp [jNeed, jNeedArr, renderVal]
  | d, .arr (.cons v t) => by
      have h := jNeedArr_le_render d v t
      rw [jNeed, renderVal]
      simp only [List.length_cons, List.length_append, padL_length]
      omega
  | _, .obj .nil => by simp [jNeed, jNeedMem, renderVal]
  | d, .obj (.cons k v t) => by
      have h := jNeedMem_le_render d k v t
      rw [jNeed, renderVal]
      simp only [List.length_cons, List.length_append, padL_length]
      omega
termination_by d v => sizeOf v

theorem jNeedArr_le_render : ∀ (d : Nat) (v : JValue) (t : JArr),
    jNeedArr (.cons v t) ≤ (renderItems (d + 1) (.cons v t)).length + 1
  | d, v, .nil => by
      have h := jNeed_le_render (d + 1) v
      rw [jNeedArr, jNeedArr, renderItems]
      simp only [List.length_append, padL_length]
      omega
  | d, v, .cons v2 t2 => by
      have h1 := jNeed_le_render (d + 1) v
      have h2 := jNeedArr_le_render d v2 t2
      rw [jNeedArr, renderItems]
      simp only [List.length_append, List.length_cons, padL_length]
      rw [jNeedArr] at h2 ⊢
      omega
termination_by d v t => sizeOf (JArr.cons v t)

theorem jNeedMem_le_render : ∀ (d : Nat) (k : String) (v : JValue) (t : JMembers),
    jNeedMem (.cons k v t) ≤ (renderMembers (d + 1) (.cons k v t)).length + 1
  | d, k, v, .nil => by
      have h := jNeed_le_render (d + 1) v
      rw [jNeedMem, jNeedMem, renderMembers]
      simp only [List.length_append, List.length_cons, padL_length]
      omega
  | d, k, v, .cons k2 v2 t2 => by
      have h1 := jNeed_le_render (d + 1) v
      have h2 := jNeedMem_le_render d k2 v2 t2
      rw [jNeedMem, renderMembers]
      simp only [List.length_append, List.length_cons, padL_length]
      rw [jNeedMem] at h2 ⊢
      omega
termination_by d k v t => sizeOf (JMembers.cons k v t)
end

mutual
theorem uniqVal_dump : ∀ n : Node, uniqVal (dumpNode n) = true
  | .content s => by simp [dumpNode, uniqVal, uniqMem, lookupJ]
  | .heading lv t ch => by
      have h := uniqArr_dump ch
      simp [dumpNode, uniqVal, uniqMem, lookupJ, h]

theorem uniqArr_dump : ∀ ns : List Node, uniqArr (dumpNodes ns) = true
  | [] => rfl
  | n :: ns => by
      simp [dumpNodes, uniqArr, uniqVal_dump n, uniqArr_dump ns]
end

theorem uniqVal_dumpDoc (d : MarkdownDocument) : uniqVal (dumpDoc d) = true := by
  simp [dumpDoc, uniqVal, uniqMem, lookupJ, uniqArr_dump]

/-- `json.loads` inverts the canonical serialization. -/
theorem jparse_serializeDoc (D : MarkdownDocument) :
    jparse (serializeDoc D) = .ok (dumpDoc D) := by
  rw [jparse]
  have hdata : (serializeDoc D).data = renderVal 0 (dumpDoc D) := rfl
  rw [hdata]
  have h := rtVal ((renderVal 0 (dumpDoc D)).length + 1) (dumpDoc D) 0 [] []
    (by simp) (by have := jNeed_le_render 0 (dumpDoc D); omega) rfl (uniqVal_dumpDoc D)
  simp only [List.nil_append, List.append_nil] at h
  rw [h]
  rfl

theorem startsFence_not_backtick (c : Char) (y : List Char) (h : ¬c = '`') :
    startsFence (c :: y) = false := by
  rw [startsFence, List.take_succ_cons, beq_eq_false_iff_ne]
  intro he
  rw [List.cons.injEq] at he
  exact h he.1

/-- The canonical serialization always renders as a brace-delimited block. -/
theorem serializeDoc_shape (D : MarkdownDocument) :
    ∃ mid, (serializeDoc D).data = '\x7b' :: (mid ++ ['\x7d']) := by
  have hdata : (serializeDoc D).data = renderVal 0 (dumpDoc D) := rfl
  rw [hdata, dumpDoc, renderVal]
  refine ⟨'\n' :: (renderMembers 1
    (.cons "contents" (.arr (dumpNodes D.contents)) .nil) ++ ['\n']), ?_⟩
  simp [padL, List.append_assoc]

/-- Fence stripping leaves the canonical serialization untouched. -/
theorem stripFences_serializeDoc (D : MarkdownDocument) :
    stripFences (serializeDoc D) = serializeDoc D := by
  obtain ⟨mid, hmid⟩ := serializeDoc_shape D
  have hstrip : pyStripL (serializeDoc D).data = (serializeDoc D).data := by
    rw [hmid]
    exact pyStripL_eq_self '\x7b' '\x7d' mid (by decide) (by decide)
  have hfence : startsFence ((serializeDoc D).data) = false := by
    rw [hmid]
    exact startsFence_not_backtick _ _ (by decide)
  simp only [stripFences, hstrip, hfence, Bool.false_eq_true, if_false]

/-- Stages 1-3 invert stage 4: the full structural round trip. -/
theorem parseDocument_serializeDoc (D : MarkdownDocument) :
    parseDocument (serializeDoc D) = .ok D := by
  rw [parseDocument, stripFences_serializeDoc]
  simp only [jparse_serializeDoc, validateDoc_dump]

/-- C1: for every Document instance `D`, running the parse stages of the
pipeline (fence stripping, `json.loads`, pydantic validation) on the
canonical serialization of `D` returns a Document structurally equal to `D`:
every Heading keeps its level, text and children, every Content keeps its
content, and all sequence orders are preserved. -/
theorem C1_parse_serialize_roundtrip (D : MarkdownDocument) :
    parseDocument (serializeDoc D) = .ok D :=
  parseDocument_serializeDoc D

/-- C9: a document with contents `[A, B, C]` dumps to a JSON array holding
the three nodes in exactly that order, and re-parsing the serialized text
restores the same order; likewise a Heading's children list, at any depth,
keeps its order through dumping, serialization and re-validation. -/
theorem C9_order_preservation :
    (∀ A B C : Node,
      dumpDoc ⟨[A, B, C]⟩
        = .obj (.cons "contents" (.arr (.cons (dumpNode A)
            (.cons (dumpNode B) (.cons (dumpNode C) .nil)))) .nil)
      ∧ parseDocument (serializeDoc ⟨[A, B, C]⟩) = .ok ⟨[A, B, C]⟩)
    ∧ ∀ (lv : Int) (t : String) (xs : List Node),
        dumpNode (.heading lv t xs)
          = .obj (.cons "level" (.int lv) (.cons "text" (.str t)
              (.cons "children" (.arr (dumpNodes xs)) .nil)))
        ∧ parseDocument (serializeDoc ⟨[.heading lv t xs]⟩)
            = .ok ⟨[.heading lv t xs]⟩ :=
  ⟨fun _ _ _ => ⟨rfl, parseDocument_serializeDoc _⟩,
    fun _ _ _ => ⟨rfl, parseDocument_serializeDoc _⟩⟩

/-- C6: canonical serialization uses 2-space indentation (every document's
output begins `{`, newline, two spaces, `"contents"`), emits the non-ASCII
text `"日本語のテスト"` literally (the whole output is the exact indented
text below, and escaping is the identity on strings without quotes,
backslashes or control characters), re-parses to the identical document, and
emits object keys in declaration order independent of the input object's key
order (an input heading object listing `children`/`text`/`level` in reverse
order validates to the same document, whose serialization lists
`level`/`text`/`children`). -/
theorem C6_canonical_serialization :
    serializeDoc ⟨[.content "日本語のテスト"]⟩
        = "\x7b\n  \"contents\": [\n    \x7b\n      \"content\": \"日本語のテスト\"\n    \x7d\n  ]\n\x7d"
    ∧ (∀ s : String, (∀ c ∈ s.data, ¬c = '"' ∧ ¬c = '\\' ∧ 32 ≤ c.toNat) →
        escapeStr s = s.data)
    ∧ parseDocument
        "\x7b\n  \"contents\": [\n    \x7b\n      \"content\": \"日本語のテスト\"\n    \x7d\n  ]\n\x7d"
        = .ok ⟨[.content "日本語のテスト"]⟩
    ∧ validateDoc (.obj (.cons "contents" (.arr (.cons (.obj
          (.cons "children" (.arr .nil)
            (.cons "text" (.str "t") (.cons "level" (.int 2) .nil)))) .nil)) .nil))
        = .ok ⟨[.heading 2 "t" []]⟩
    ∧ serializeDoc ⟨[.heading 2 "t" []]⟩
        = "\x7b\n  \"contents\": [\n    \x7b\n      \"level\": 2,\n      \"text\": \"t\",\n      \"children\": []\n    \x7d\n  ]\n\x7d"
    ∧ ∀ D : MarkdownDocument,
        (serializeDoc D).data.take 14 = "\x7b\n  \"contents\"".data := by
  refine ⟨rfl, ?_, ?_, rfl, rfl, fun D => rfl⟩
  · intro s h
    rw [escapeStr]
    have : ∀ c ∈ s.data, escapeChar c = [c] := by
      intro c hc
      obtain ⟨h1, h2, h3⟩ := h c hc
      rw [escapeChar, if_neg h1, if_neg h2, if_neg (by intro he; subst he; simp at h3),
        if_neg (by intro he; subst he; simp at h3),
        if_neg (by intro he; subst he; simp at h3),
        if_neg (by intro he; subst he; simp at h3),
        if_neg (by intro he; subst he; simp at h3), if_neg (by omega)]
    have key : ∀ l : List Char, (∀ c ∈ l, escapeChar c = [c]) →
        l.flatMap escapeChar = l := by
      intro l hl
      induction l with
      | nil => rfl
      | cons c t ih =>
          rw [List.flatMap_cons, hl c (List.mem_cons_self ..),
            ih (fun a ha => hl a (List.mem_cons_of_mem c ha))]
          rfl
    exact key s.data this
  · have h1 : serializeDoc ⟨[.content "日本語のテスト"]⟩
        = "\x7b\n  \"contents\": [\n    \x7b\n      \"content\": \"日本語のテスト\"\n    \x7d\n  ]\n\x7d" := rfl
    rw [← h1]
    exact parseDocument_serializeDoc _

/-- Witness for C6's general escape-identity conjunct, at the string
`"日本語のテスト"`. -/
theorem C6_canonical_serialization_witness :
    (∀ c ∈ ("日本語のテスト" : String).data, ¬c = '"' ∧ ¬c = '\\' ∧ 32 ≤ c.toNat)
    ∧ escapeStr "日本語のテスト" = ("日本語のテスト" : String).data :=
  ⟨by decide, C6_canonical_serialization.2.1 "日本語のテスト" (by decide)⟩

end MdPipeline
